import Mathlib

/-!
Shallow embedding of `src/event/source/unix.rs` (the Unix internal event
source of the crossterm repository): the ring-buffer parser driver inside
`UnixInternalEventSource::try_read`, the SIGWINCH resize branch, and the
wake channel.  Rust `usize` arithmetic is modelled as `Nat` with explicit
wrap-around modulo `2 ^ 64` at the one place the source can overflow
(`self.tty_buffer_byte_count += read_count - consumed_bytes`).
-/

namespace Crossterm

/-- Outcome of the external parser `parse_event(bytes, more)`:
`Ok(None)` (needs more bytes), `Ok(Some(event))`, or `Err(_)` (invalid). -/
inductive ParseResult (Ev : Type) where
  | incomplete
  | success (e : Ev)
  | invalid
  deriving DecidableEq

/-- The external incremental parser collaborator (`parse_event`): takes a
byte slice and the `more` hint, returns a three-way outcome.  It is a black
box to this layer, so it is a parameter of every driver function. -/
abbrev Parser (β Ev : Type) := List β → Bool → ParseResult Ev

/-- `const TTY_BUFFER_SIZE: usize = 8_192;` -/
def TTY_BUFFER_SIZE : Nat := 8192

/-- `const TTY_BUFFER_THRESHOLD: usize = 512;` -/
def TTY_BUFFER_THRESHOLD : Nat := 512

/-- Modulus of Rust `usize` arithmetic on 64-bit targets. -/
def USIZE_MOD : Nat := 2 ^ 64

/-- Driver state of `UnixInternalEventSource`: the fixed tty buffer, the
head index, the count of unresolved bytes starting at the head, and the
FIFO queue of already-parsed events (`VecDeque`, front at list head). -/
structure UnixInternalEventSource (β Ev : Type) where
  tty_buffer : List β
  tty_buffer_head_index : Nat
  tty_buffer_byte_count : Nat
  internal_events : List Ev
  deriving DecidableEq

/-- `from_file_descriptor`: fresh state.  The Rust code allocates the
8192-byte buffer with `set_len` and never initialises it, so the initial
contents are an arbitrary `garbage` list (theorems assume only its length). -/
def from_file_descriptor (garbage : List β) : UnixInternalEventSource β Ev :=
  { tty_buffer := garbage
    tty_buffer_head_index := 0
    tty_buffer_byte_count := 0
    internal_events := [] }

/-- Overwrite the region `[pos, pos + data.length)` of a fixed buffer.
Models both the `read` into `tty_buffer[head+count..]` and the
`copy_within(head..head+count, 0)` compaction copy. -/
def writeAt (buf : List β) (pos : Nat) (data : List β) : List β :=
  buf.take pos ++ data ++ buf.drop (pos + data.length)

/-- Outcome of one run of the inner `for i in 1..=byte_count_to_process`
loop: either it fell off the end with `Ok(None)` everywhere (the code sets
`byte_count_to_process = 0` and the outer loop stops), or the parser
consumed a prefix of length `i` (producing `some e` on success, `none` on
an invalid prefix that is discarded). -/
inductive ScanOutcome (Ev : Type) where
  | stopped
  | consumed (i : Nat) (ev : Option Ev)
  deriving DecidableEq

/-- The inner `for` loop of `try_read`, starting at prefix length `i`:
try `parse_event(&buffer[head..head+i], more)` with
`more = i < byte_count_to_process || input_available`, growing `i` on
`Ok(None)` until the prefix is the whole pending region. -/
def scanFrom (parse : Parser β Ev) (pending : List β) (input_available : Bool)
    (i : Nat) : ScanOutcome Ev :=
  if h : 1 ≤ i ∧ i ≤ pending.length then
    match parse (pending.take i) (decide (i < pending.length) || input_available) with
    | .incomplete =>
        if h2 : i = pending.length then .stopped
        else scanFrom parse pending input_available (i + 1)
    | .success e => .consumed i (some e)
    | .invalid => .consumed i none
  else .stopped
  termination_by pending.length + 1 - i
  decreasing_by omega

theorem scanFrom_consumed_bounds (parse : Parser β Ev) (pending : List β)
    (ia : Bool) :
    ∀ i j oe, scanFrom parse pending ia i = .consumed j oe →
      i ≤ j ∧ 1 ≤ j ∧ j ≤ pending.length := by
  intro i
  induction i using scanFrom.induct parse pending ia with
  | case1 hi hinc =>
      intro j oe h
      rw [scanFrom.eq_def] at h
      simp only [hi, hinc, dite_true] at h
      simp at h
  | case2 x hx hinc hne ih =>
      intro j oe h
      rw [scanFrom.eq_def] at h
      simp only [hx, hinc, hne, dite_true, dite_false] at h
      have := ih j oe h
      omega
  | case3 x hx e hs =>
      intro j oe h
      rw [scanFrom.eq_def] at h
      simp only [hx, hs, dite_true] at h
      obtain ⟨rfl, -⟩ := h
      exact ⟨le_refl _, hx.1, hx.2⟩
  | case4 x hx hs =>
      intro j oe h
      rw [scanFrom.eq_def] at h
      simp only [hx, hs, dite_true] at h
      obtain ⟨rfl, -⟩ := h
      exact ⟨le_refl _, hx.1, hx.2⟩
  | case5 x hx =>
      intro j oe h
      rw [scanFrom.eq_def] at h
      simp only [hx, dite_false] at h
      simp at h

/-- The outer `while byte_count_to_process > 0` loop of `try_read` over the
pending region: returns the events produced (in queue order) and the total
`consumed_bytes`. -/
def processLoop (parse : Parser β Ev) (pending : List β) (input_available : Bool) :
    List Ev × Nat :=
  if hp : pending.length = 0 then ([], 0)
  else
    match hs : scanFrom parse pending input_available 1 with
    | .stopped => ([], 0)
    | .consumed i oe =>
        let rest := processLoop parse (pending.drop i) input_available
        (oe.toList ++ rest.1, i + rest.2)
  termination_by pending.length
  decreasing_by
    have := scanFrom_consumed_bounds parse pending input_available 1 i oe hs
    simp only [List.length_drop]
    omega

theorem processLoop_nil (parse : Parser β Ev) (pending : List β) (ia : Bool)
    (hp : pending.length = 0) : processLoop parse pending ia = ([], 0) := by
  rw [processLoop.eq_def]
  simp [hp]

theorem processLoop_eq_stopped (parse : Parser β Ev) (pending : List β) (ia : Bool)
    (hs : scanFrom parse pending ia 1 = .stopped) :
    processLoop parse pending ia = ([], 0) := by
  rw [processLoop.eq_def]
  by_cases hp : pending.length = 0
  · simp [hp]
  · simp only [hp, dite_false]
    split
    · rfl
    · rename_i i oe heq
      rw [hs] at heq
      simp at heq

theorem processLoop_eq_consumed (parse : Parser β Ev) (pending : List β) (ia : Bool)
    (i : Nat) (oe : Option Ev) (hp : pending.length ≠ 0)
    (hs : scanFrom parse pending ia 1 = .consumed i oe) :
    processLoop parse pending ia =
      (oe.toList ++ (processLoop parse (pending.drop i) ia).1,
        i + (processLoop parse (pending.drop i) ia).2) := by
  rw [processLoop.eq_def]
  simp only [hp, dite_false]
  split
  · rename_i heq
    rw [hs] at heq
    simp at heq
  · rename_i i' oe' heq
    rw [hs] at heq
    cases heq
    rfl

/-- The `TTY_TOKEN` branch of one `try_read` poll iteration.  `chunk` is
what `self.tty_fd.read(..)` returned (so `chunk.length` is `read_count`;
the read is bounded by `max_read_count`, which theorems state as a
hypothesis), `input_available` is the result of the zero-timeout re-poll.
`none` models the `panic!` on a full buffer.  The queue is kept whole here;
the final `internal_events.pop_front()` of the branch is `popFront`. -/
def ttyPass (parse : Parser β Ev) (s : UnixInternalEventSource β Ev)
    (chunk : List β) (input_available : Bool) :
    Option (UnixInternalEventSource β Ev) :=
  if TTY_BUFFER_SIZE ≤ s.tty_buffer_head_index + s.tty_buffer_byte_count then
    none
  else
    let read_count := chunk.length
    let buf :=
      writeAt s.tty_buffer (s.tty_buffer_head_index + s.tty_buffer_byte_count) chunk
    if 0 < read_count then
      let byte_count_to_process := s.tty_buffer_byte_count + read_count
      let pending := (buf.drop s.tty_buffer_head_index).take byte_count_to_process
      let pr := processLoop parse pending input_available
      let consumed_bytes := pr.2
      let head1 := s.tty_buffer_head_index + consumed_bytes
      let count1 :=
        (s.tty_buffer_byte_count + (read_count + USIZE_MOD - consumed_bytes) % USIZE_MOD)
          % USIZE_MOD
      if TTY_BUFFER_SIZE - 1 ≤ head1 + TTY_BUFFER_THRESHOLD then
        some { tty_buffer :=
                 if 0 < count1 then writeAt buf 0 ((buf.drop head1).take count1) else buf
               tty_buffer_head_index := 0
               tty_buffer_byte_count := count1
               internal_events := s.internal_events ++ pr.1 }
      else
        some { tty_buffer := buf
               tty_buffer_head_index := head1
               tty_buffer_byte_count := count1
               internal_events := s.internal_events ++ pr.1 }
    else
      some { s with tty_buffer := buf }

/-- `self.internal_events.pop_front()`: performed first thing in `try_read`
and again at the end of a `TTY_TOKEN` pass that read bytes. -/
def popFront (s : UnixInternalEventSource β Ev) :
    UnixInternalEventSource β Ev × Option Ev :=
  match s.internal_events with
  | [] => (s, none)
  | e :: rest => ({ s with internal_events := rest }, some e)

/-- Drive the source over a byte `stream` split into successive reads: each
element of `reads` is one terminal-readiness pass, given as the number of
bytes the terminal offers to that pass plus the re-poll answer of that
pass.  The pass reads `min offered (min stream.length max_read_count)`
bytes, exactly as the bounded `tty_fd.read` does; unread bytes stay in the
stream for later passes.  Events accumulate in `internal_events` (the queue
is drained FIFO by `popFront`, which preserves their order). -/
def feedStream (parse : Parser β Ev) (s : UnixInternalEventSource β Ev)
    (stream : List β) (reads : List (Nat × Bool)) :
    Option (UnixInternalEventSource β Ev × List β) :=
  match reads with
  | [] => some (s, stream)
  | (offered, ia) :: rest =>
      let read_count :=
        min offered (min stream.length
          (TTY_BUFFER_SIZE - s.tty_buffer_head_index - s.tty_buffer_byte_count))
      match ttyPass parse s (stream.take read_count) ia with
      | none => none
      | some s' => feedStream parse s' (stream.drop read_count) rest

/-- The zero-timeout re-poll (`self.poll.poll(&mut self.events,
Some(Duration::from_secs(0))).map(|x| x > 0)`).  The `Poll` instance has
all three sources registered level-triggered (TTY, the SIGWINCH listener,
the wake pipe), so the event count `x` is positive exactly when at least
one of the three is ready. -/
def pollZero (tty_ready signal_ready wake_ready : Bool) : Bool :=
  tty_ready || signal_ready || wake_ready

/-- The user-facing event type, restricted to the one variant this file
needs (`Event::Resize(columns, rows)`, both `u16`). -/
inductive Event where
  | Resize (columns rows : Nat)
  deriving DecidableEq

/-- `InternalEvent`, restricted likewise to its `Event` variant. -/
inductive InternalEvent where
  | Event (e : Event)
  deriving DecidableEq

/-- Delivery of a `SIGWINCH` to the listener.  The external collaborator
`signal_hook::iterator::Signals` keeps one pending flag per subscribed
signal number, so deliveries arriving before a drain coalesce: the
listener's pending state is a single `Bool`. -/
def sigwinchDeliver (_pending : Bool) : Bool := true

/-- The `SIGNAL_TOKEN` branch of `try_read`: iterate the pending signals
and, on `SIGWINCH`, query `crate::terminal::size()` (given here as the
`size` argument, its value at drain time) and return
`Ok(Some(InternalEvent::Event(Event::Resize(w, h))))`.  Returns the
branch's result and the listener's pending flag afterwards. -/
def signalPass (sigwinch_pending : Bool) (size : Nat × Nat) :
    Option InternalEvent × Bool :=
  if sigwinch_pending then
    (some (InternalEvent.Event (Event.Resize size.1 size.2)), false)
  else
    (none, false)

/-- `wake()`: `let _ = self.wake_write_fd.write(&[0x57]);` — one single
byte, with a failed write on a full pipe ignored (the function is total and
returns the pipe, never an error). -/
def wake (pipe : List Nat) (capacity : Nat) : List Nat :=
  if pipe.length + 1 ≤ capacity then pipe ++ [0x57] else pipe

/-- The `WAKE_TOKEN` branch of `try_read`:
`let _ = self.wake_read_fd.read_byte(); return Ok(None);` — consume one
byte (a failed read on an empty pipe ignored) and report no event. -/
def wakePass (pipe : List Nat) : List Nat × Option InternalEvent :=
  (pipe.drop 1, none)

theorem processLoop_consumed_le (parse : Parser β Ev) :
    ∀ (pending : List β) (ia : Bool),
      (processLoop parse pending ia).2 ≤ pending.length := by
  intro pending ia
  induction pending, ia using processLoop.induct parse with
  | case1 pending ia hp => rw [processLoop_nil parse pending ia hp]; simp
  | case2 pending ia hp hs => rw [processLoop_eq_stopped parse pending ia hs]; simp
  | case3 pending ia hp i oe hs ih =>
      rw [processLoop_eq_consumed parse pending ia i oe hp hs]
      have hb := scanFrom_consumed_bounds parse pending ia 1 i oe hs
      simp only [List.length_drop] at ih
      simp only []
      omega

/-- The live region `[head, head + count)` of the buffer: the bytes not
yet resolved into an event. -/
def liveRegion (s : UnixInternalEventSource β Ev) : List β :=
  (s.tty_buffer.drop s.tty_buffer_head_index).take s.tty_buffer_byte_count

theorem writeAt_length (buf : List β) (pos : Nat) (data : List β)
    (h : pos + data.length ≤ buf.length) :
    (writeAt buf pos data).length = buf.length := by
  simp only [writeAt, List.length_append, List.length_take, List.length_drop]
  omega

theorem writeAt_nil (buf : List β) (pos : Nat) : writeAt buf pos [] = buf := by
  simp [writeAt]

theorem writeAt_drop (buf : List β) (head count : Nat) (data : List β)
    (h : head + count ≤ buf.length) :
    (writeAt buf (head + count) data).drop head =
      (buf.drop head).take count ++ (data ++ buf.drop (head + count + data.length)) := by
  have hlen : (buf.take (head + count)).length = head + count := by
    simp only [List.length_take]
    omega
  rw [writeAt, List.append_assoc, List.drop_append_eq_append_drop, hlen]
  have h0 : head - (head + count) = 0 := by omega
  rw [h0, List.drop_zero, List.drop_take]
  have h1 : head + count - head = count := by omega
  rw [h1]

theorem writeAt_drop_take (buf : List β) (head count : Nat) (data : List β)
    (h : head + count + data.length ≤ buf.length) :
    ((writeAt buf (head + count) data).drop head).take (count + data.length) =
      (buf.drop head).take count ++ data := by
  rw [writeAt_drop buf head count data (by omega)]
  have hX : ((buf.drop head).take count).length = count := by
    simp only [List.length_take, List.length_drop]
    omega
  rw [List.take_append_eq_append_take, hX]
  have h2 : count + data.length - count = data.length := by omega
  rw [List.take_of_length_le (by omega), h2, List.take_append_eq_append_take,
    List.take_of_length_le (le_refl _)]
  have h3 : data.length - data.length = 0 := by omega
  rw [h3, List.take_zero, List.append_nil]

theorem writeAt_take_self (buf : List β) (data : List β)
    (h : data.length ≤ buf.length) :
    (writeAt buf 0 data).take data.length = data := by
  simp only [writeAt, List.take_zero, List.nil_append, Nat.zero_add]
  rw [List.take_left' rfl]

/-- The wrapping `usize` computation
`tty_buffer_byte_count + (read_count - consumed_bytes)` evaluates to the
exact value `count + n - consumed` whenever `consumed ≤ count + n` stays
far below `2 ^ 64`, even when `consumed > n` (the intermediate subtraction
wraps but the sum re-wraps to the true value). -/
theorem usize_wrap_sub (count n consumed : Nat) (h1 : consumed ≤ count + n)
    (h2 : count + n < USIZE_MOD) :
    (count + (n + USIZE_MOD - consumed) % USIZE_MOD) % USIZE_MOD =
      count + n - consumed := by
  have hM : USIZE_MOD = 18446744073709551616 := by norm_num [USIZE_MOD]
  rw [hM] at h2 ⊢
  omega

theorem liveRegion_length (s : UnixInternalEventSource β Ev)
    (hbuf : s.tty_buffer.length = TTY_BUFFER_SIZE)
    (hinv : s.tty_buffer_head_index + s.tty_buffer_byte_count ≤ TTY_BUFFER_SIZE) :
    (liveRegion s).length = s.tty_buffer_byte_count := by
  simp only [liveRegion, List.length_take, List.length_drop, hbuf]
  omega

/-- Workhorse description of a `TTY_TOKEN` pass that read `chunk ≠ []`:
the pass runs `processLoop` on `liveRegion s ++ chunk`, appends the
produced events to the queue, sets the byte count to the exact number of
unresolved bytes, keeps the buffer length fixed, leaves the live region
equal to the unconsumed suffix, and moves the head as the source does
(to `0` if the compaction condition fired, else forward by
`consumed_bytes`). -/
theorem ttyPass_spec (parse : Parser β Ev) (s : UnixInternalEventSource β Ev)
    (chunk : List β) (ia : Bool)
    (hbuf : s.tty_buffer.length = TTY_BUFFER_SIZE)
    (hfit : s.tty_buffer_head_index + s.tty_buffer_byte_count + chunk.length
              ≤ TTY_BUFFER_SIZE)
    (hne : chunk.length ≠ 0) :
    ∃ s', ttyPass parse s chunk ia = some s' ∧
      s'.internal_events =
        s.internal_events ++ (processLoop parse (liveRegion s ++ chunk) ia).1 ∧
      s'.tty_buffer_byte_count =
        s.tty_buffer_byte_count + chunk.length
          - (processLoop parse (liveRegion s ++ chunk) ia).2 ∧
      s'.tty_buffer.length = TTY_BUFFER_SIZE ∧
      liveRegion s' =
        (liveRegion s ++ chunk).drop (processLoop parse (liveRegion s ++ chunk) ia).2 ∧
      s'.tty_buffer_head_index =
        (if TTY_BUFFER_SIZE - 1 ≤
            s.tty_buffer_head_index + (processLoop parse (liveRegion s ++ chunk) ia).2
              + TTY_BUFFER_THRESHOLD
         then 0
         else s.tty_buffer_head_index
                + (processLoop parse (liveRegion s ++ chunk) ia).2) := by
  set head := s.tty_buffer_head_index with hhead
  set count := s.tty_buffer_byte_count with hcount
  set n := chunk.length with hn
  have hlt : head + count < TTY_BUFFER_SIZE := by omega
  have hnotfull : ¬ TTY_BUFFER_SIZE ≤ head + count := by omega
  set buf := writeAt s.tty_buffer (head + count) chunk with hbufdef
  have hbuflen : buf.length = TTY_BUFFER_SIZE := by
    rw [hbufdef, writeAt_length]
    · exact hbuf
    · omega
  have hpend : (buf.drop head).take (count + n) = liveRegion s ++ chunk := by
    rw [hbufdef, writeAt_drop_take]
    · rfl
    · omega
  set pending := liveRegion s ++ chunk with hpending
  set pr := processLoop parse pending ia with hpr
  have hpendlen : pending.length = count + n := by
    rw [hpending, List.length_append, liveRegion_length s hbuf (by omega)]
  have hconsumed : pr.2 ≤ count + n := by
    rw [hpr]
    have := processLoop_consumed_le parse pending ia
    omega
  have hcount1 : (count + (n + USIZE_MOD - pr.2) % USIZE_MOD) % USIZE_MOD
      = count + n - pr.2 := by
    apply usize_wrap_sub
    · exact hconsumed
    · have hM : USIZE_MOD = 18446744073709551616 := by norm_num [USIZE_MOD]
      rw [hM]
      have : TTY_BUFFER_SIZE = 8192 := rfl
      omega
  have hdroptail : (buf.drop (head + pr.2)).take (count + n - pr.2)
      = pending.drop pr.2 := by
    have : pending.drop pr.2 = ((buf.drop head).take (count + n)).drop pr.2 := by
      rw [hpend]
    rw [this, List.drop_take, List.drop_drop]
  have hdroplen : (pending.drop pr.2).length = count + n - pr.2 := by
    simp only [List.length_drop, hpendlen]
  rw [ttyPass]
  simp only [hnotfull, if_false, ← hbufdef, ← hn]
  have hpos : 0 < n := by omega
  simp only [hpos, if_true, hpend, ← hpending, ← hpr, hcount1]
  by_cases hcomp : TTY_BUFFER_SIZE - 1 ≤ head + pr.2 + TTY_BUFFER_THRESHOLD
  · simp only [hcomp, if_true]
    refine ⟨_, rfl, rfl, rfl, ?_, ?_, by simp [hcomp]⟩
    · by_cases hc1 : 0 < count + n - pr.2
      · simp only [hc1, if_true]
        rw [writeAt_length]
        · exact hbuflen
        · simp only [List.length_take, List.length_drop, hbuflen]
          omega
      · simp only [hc1, if_false]
        exact hbuflen
    · by_cases hc1 : 0 < count + n - pr.2
      · simp only [liveRegion, hc1, if_true, List.drop_zero]
        rw [hdroptail, ← hdroplen, writeAt_take_self]
        rw [hdroplen, hbuflen]
        have : TTY_BUFFER_SIZE = 8192 := rfl
        omega
      · simp only [liveRegion, hc1, if_false, List.drop_zero]
        have h0 : count + n - pr.2 = 0 := by omega
        rw [h0, List.take_zero]
        symm
        exact List.drop_eq_nil_of_le (by omega)
  · simp only [hcomp, if_false]
    refine ⟨_, rfl, rfl, rfl, hbuflen, ?_, by simp [hcomp]⟩
    simp only [liveRegion]
    exact hdroptail

/-- One complete input byte sequence together with the event it decodes
to. -/
structure WfSeq (β Ev : Type) where
  bytes : List β
  evt : Ev
  deriving DecidableEq

/-- `q` is a complete, well-formed sequence for `parse`: nonempty, the
full sequence parses to exactly `q.evt` under either `more` hint, and
every proper nonempty prefix is `Ok(None)` under either hint. -/
def SeqWellFormed (parse : Parser β Ev) (q : WfSeq β Ev) : Prop :=
  q.bytes ≠ [] ∧
  (∀ m, parse q.bytes m = .success q.evt) ∧
  (∀ j, 1 ≤ j → j < q.bytes.length → ∀ m, parse (q.bytes.take j) m = .incomplete)

/-- Every nonempty prefix of `p` is `Ok(None)` under either hint (the
state of a partially received sequence). -/
def PrefixesIncomplete (parse : Parser β Ev) (p : List β) : Prop :=
  ∀ j, 1 ≤ j → j ≤ p.length → ∀ m, parse (p.take j) m = .incomplete

/-- Concatenation of the raw bytes of a list of sequences. -/
def flattenBytes (ss : List (WfSeq β Ev)) : List β :=
  (ss.map (·.bytes)).flatten

theorem flattenBytes_nil : flattenBytes ([] : List (WfSeq β Ev)) = [] := rfl

theorem flattenBytes_cons (q : WfSeq β Ev) (qs : List (WfSeq β Ev)) :
    flattenBytes (q :: qs) = q.bytes ++ flattenBytes qs := rfl

theorem flattenBytes_append (l₁ l₂ : List (WfSeq β Ev)) :
    flattenBytes (l₁ ++ l₂) = flattenBytes l₁ ++ flattenBytes l₂ := by
  simp [flattenBytes]

theorem scanFrom_stopped_of_incomplete (parse : Parser β Ev) (pending : List β)
    (ia : Bool) (hp : PrefixesIncomplete parse pending) :
    ∀ i, scanFrom parse pending ia i = .stopped := by
  intro i
  induction i using scanFrom.induct parse pending ia with
  | case1 hi hinc =>
      rw [scanFrom.eq_def]
      have hfull := hp pending.length hi.1 (le_refl _)
      simp only [List.take_length] at hfull
      simp [hi, hfull]
  | case2 x hx hinc hne ih =>
      rw [scanFrom.eq_def]
      simp only [hx, hinc, hne, and_self, dite_true, dite_false]
      exact ih
  | case3 x hx e hs =>
      rw [hp x hx.1 hx.2] at hs
      simp at hs
  | case4 x hx hs =>
      rw [hp x hx.1 hx.2] at hs
      simp at hs
  | case5 x hx =>
      rw [scanFrom.eq_def]
      simp [hx]

theorem scanFrom_skip (parse : Parser β Ev) (pending : List β) (ia : Bool) :
    ∀ d i₀, 1 ≤ i₀ → i₀ + d ≤ pending.length →
      (∀ j, i₀ ≤ j → j < i₀ + d →
        parse (pending.take j) (decide (j < pending.length) || ia) = .incomplete) →
      scanFrom parse pending ia i₀ = scanFrom parse pending ia (i₀ + d) := by
  intro d
  induction d with
  | zero => intro i₀ _ _ _; rfl
  | succ d ih =>
      intro i₀ h1 h2 hinc
      have hstep : scanFrom parse pending ia i₀ = scanFrom parse pending ia (i₀ + 1) := by
        rw [scanFrom.eq_def]
        have hcond : 1 ≤ i₀ ∧ i₀ ≤ pending.length := ⟨h1, by omega⟩
        have hne : ¬ i₀ = pending.length := by omega
        simp only [hcond.1, hcond.2, hinc i₀ (le_refl _) (by omega), hne, and_self,
          dite_true, dite_false]
      rw [hstep]
      have : i₀ + (d + 1) = (i₀ + 1) + d := by omega
      rw [this]
      exact ih (i₀ + 1) (by omega) (by omega) (fun j hj1 hj2 => hinc j (by omega) (by omega))

/-- On a pending region beginning with a complete well-formed sequence,
the inner loop consumes exactly that sequence and produces its event. -/
theorem scanFrom_wf_head (parse : Parser β Ev) (q : WfSeq β Ev) (rest : List β)
    (ia : Bool) (hwf : SeqWellFormed parse q) :
    scanFrom parse (q.bytes ++ rest) ia 1 = .consumed q.bytes.length (some q.evt) := by
  obtain ⟨hne, hfull, hpref⟩ := hwf
  have hlen1 : 1 ≤ q.bytes.length := by
    cases hq : q.bytes with
    | nil => exact absurd hq hne
    | cons a l => simp [hq]
  have hlen2 : q.bytes.length ≤ (q.bytes ++ rest).length := by
    simp [List.length_append]
  have htake : ∀ j, j ≤ q.bytes.length → (q.bytes ++ rest).take j = q.bytes.take j := by
    intro j hj
    rw [List.take_append_eq_append_take]
    have : j - q.bytes.length = 0 := by omega
    rw [this, List.take_zero, List.append_nil]
  have hskip := scanFrom_skip parse (q.bytes ++ rest) ia (q.bytes.length - 1) 1
    (le_refl _) (by omega)
    (fun j hj1 hj2 => by
      rw [htake j (by omega)]
      exact hpref j hj1 (by omega) _)
  have h1d : 1 + (q.bytes.length - 1) = q.bytes.length := by omega
  rw [h1d] at hskip
  rw [hskip, scanFrom.eq_def]
  have hcond : 1 ≤ q.bytes.length ∧ q.bytes.length ≤ (q.bytes ++ rest).length :=
    ⟨hlen1, hlen2⟩
  have htq : (q.bytes ++ rest).take q.bytes.length = q.bytes := by
    rw [htake _ (le_refl _), List.take_of_length_le (le_refl _)]
  simp only [hcond.1, hcond.2, and_self, dite_true, htq, hfull]

/-- The outer loop on `flattenBytes ss ++ p` (complete sequences followed
by a partial one) consumes exactly the complete sequences and yields their
events in order. -/
theorem processLoop_concat (parse : Parser β Ev) (ia : Bool) :
    ∀ (ss : List (WfSeq β Ev)) (p : List β),
      (∀ q ∈ ss, SeqWellFormed parse q) →
      PrefixesIncomplete parse p →
      processLoop parse (flattenBytes ss ++ p) ia =
        (ss.map (·.evt), (flattenBytes ss).length) := by
  intro ss
  induction ss with
  | nil =>
      intro p _ hp
      rw [flattenBytes_nil, List.nil_append]
      by_cases hpn : p.length = 0
      · rw [processLoop_nil parse p ia hpn]
        simp [flattenBytes_nil]
      · rw [processLoop_eq_stopped parse p ia
          (scanFrom_stopped_of_incomplete parse p ia hp 1)]
        simp [flattenBytes_nil]
  | cons q qs ih =>
      intro p hwf hp
      have hq : SeqWellFormed parse q := hwf q (List.mem_cons_self q qs)
      have hqs : ∀ r ∈ qs, SeqWellFormed parse r :=
        fun r hr => hwf r (List.mem_cons_of_mem q hr)
      rw [flattenBytes_cons, List.append_assoc]
      have hscan := scanFrom_wf_head parse q (flattenBytes qs ++ p) ia hq
      have hne : (q.bytes ++ (flattenBytes qs ++ p)).length ≠ 0 := by
        have hqlen : q.bytes.length ≠ 0 := by
          cases hb : q.bytes with
          | nil => exact absurd hb hq.1
          | cons a l => simp [hb]
        rw [List.length_append]
        omega
      rw [processLoop_eq_consumed parse _ ia q.bytes.length (some q.evt) hne hscan]
      rw [List.drop_left' rfl]
      rw [ih p hqs hp]
      simp [flattenBytes_cons, List.length_append]

/-- Any prefix of a flattened sequence list splits into a run of complete
sequences followed by a (possibly empty) proper prefix of the next one. -/
theorem flatten_split (ss : List (WfSeq β Ev)) :
    ∀ L, L ≤ (flattenBytes ss).length →
      ∃ ss₁ ss₂ p, ss = ss₁ ++ ss₂ ∧
        (flattenBytes ss).take L = flattenBytes ss₁ ++ p ∧
        L = (flattenBytes ss₁).length + p.length ∧
        ((ss₂ = [] ∧ p = []) ∨
          ∃ q qs, ss₂ = q :: qs ∧ p = q.bytes.take p.length ∧
            p.length < q.bytes.length) := by
  induction ss with
  | nil =>
      intro L hL
      simp only [flattenBytes_nil, List.length_nil, Nat.le_zero] at hL
      subst hL
      exact ⟨[], [], [], rfl, by simp [flattenBytes_nil], by simp [flattenBytes_nil],
        Or.inl ⟨rfl, rfl⟩⟩
  | cons q qs ih =>
      intro L hL
      by_cases hcase : L < q.bytes.length
      · refine ⟨[], q :: qs, (flattenBytes (q :: qs)).take L, rfl, ?_, ?_, ?_⟩
        · simp [flattenBytes_nil]
        · have : ((flattenBytes (q :: qs)).take L).length = L := by
            simp only [List.length_take]
            omega
          simp [flattenBytes_nil, this]
        · refine Or.inr ⟨q, qs, rfl, ?_, ?_⟩
          · have hlen : ((flattenBytes (q :: qs)).take L).length = L := by
              simp only [List.length_take]
              omega
            rw [hlen, flattenBytes_cons, List.take_append_eq_append_take]
            have : L - q.bytes.length = 0 := by omega
            rw [this, List.take_zero, List.append_nil]
          · have hlen : ((flattenBytes (q :: qs)).take L).length = L := by
              simp only [List.length_take]
              omega
            rw [hlen]
            exact hcase
      · push_neg at hcase
        rw [flattenBytes_cons, List.length_append] at hL
        obtain ⟨ss₁, ss₂, p, hsplit, htake, hlen, hdisj⟩ :=
          ih (L - q.bytes.length) (by omega)
        refine ⟨q :: ss₁, ss₂, p, by rw [List.cons_append, hsplit], ?_, ?_, hdisj⟩
        · rw [flattenBytes_cons]
          obtain ⟨d, hd⟩ := Nat.exists_eq_add_of_le hcase
          rw [hd, List.take_append]
          rw [hd] at htake
          have : q.bytes.length + d - q.bytes.length = d := by omega
          rw [this] at htake
          rw [htake, flattenBytes_cons, List.append_assoc]
        · rw [flattenBytes_cons, List.length_append]
          omega

/-- A proper prefix of a well-formed sequence has only incomplete
prefixes. -/
theorem prefixesIncomplete_of_wf (parse : Parser β Ev) (q : WfSeq β Ev)
    (hwf : SeqWellFormed parse q) (c : Nat) (hc : c < q.bytes.length) :
    PrefixesIncomplete parse (q.bytes.take c) := by
  intro j hj1 hj2 m
  have hlen : (q.bytes.take c).length = c := by
    simp only [List.length_take]
    omega
  rw [hlen] at hj2
  rw [List.take_take]
  have : j ⊓ c = j := by omega
  rw [this]
  exact hwf.2.2 j hj1 (by omega) m

/-- Invariant carried across `feedStream` passes in the round-trip proof:
after `k` sequences have been decoded, the queue holds exactly their
events, the live region plus the undelivered stream is exactly the bytes
of the remaining sequences, the live region is a proper prefix of the next
sequence, and the head index is below the compaction threshold line. -/
def RunInv (seqs : List (WfSeq β Ev)) (s : UnixInternalEventSource β Ev)
    (stream : List β) (k : Nat) : Prop :=
  k ≤ seqs.length ∧
  s.tty_buffer.length = TTY_BUFFER_SIZE ∧
  s.tty_buffer_head_index + TTY_BUFFER_THRESHOLD < TTY_BUFFER_SIZE - 1 ∧
  s.internal_events = (seqs.take k).map (·.evt) ∧
  liveRegion s ++ stream = flattenBytes (seqs.drop k) ∧
  s.tty_buffer_byte_count = (liveRegion s).length ∧
  ((seqs.drop k = [] ∧ s.tty_buffer_byte_count = 0) ∨
    ∃ q rest, seqs.drop k = q :: rest ∧
      s.tty_buffer_byte_count < q.bytes.length ∧
      liveRegion s = q.bytes.take s.tty_buffer_byte_count)

theorem ttyPass_nil_chunk (parse : Parser β Ev) (s : UnixInternalEventSource β Ev)
    (ia : Bool) (hlt : s.tty_buffer_head_index + s.tty_buffer_byte_count
      < TTY_BUFFER_SIZE) :
    ttyPass parse s [] ia = some s := by
  rw [ttyPass]
  simp only [not_le.mpr hlt, if_false, List.length_nil, Nat.lt_irrefl, writeAt_nil]

/-- One `feedStream` pass preserves the run invariant. -/
theorem runInv_step (parse : Parser β Ev) (seqs : List (WfSeq β Ev))
    (hwf : ∀ q ∈ seqs, SeqWellFormed parse q)
    (hshort : ∀ q ∈ seqs, q.bytes.length ≤ TTY_BUFFER_THRESHOLD + 2)
    (s : UnixInternalEventSource β Ev) (stream : List β) (k : Nat)
    (hinv : RunInv seqs s stream k) (ia : Bool) (r : Nat)
    (hr1 : r ≤ stream.length)
    (hr2 : r ≤ TTY_BUFFER_SIZE - s.tty_buffer_head_index - s.tty_buffer_byte_count) :
    ∃ s' k', ttyPass parse s (stream.take r) ia = some s' ∧
      RunInv seqs s' (stream.drop r) k' := by
  obtain ⟨hk, hbuf, hhead, hev, hconcat, hcnt, hdisj⟩ := hinv
  have hT : TTY_BUFFER_SIZE = 8192 := rfl
  have hTh : TTY_BUFFER_THRESHOLD = 512 := rfl
  have hcountle : s.tty_buffer_byte_count ≤ TTY_BUFFER_THRESHOLD + 1 := by
    rcases hdisj with ⟨-, hc0⟩ | ⟨q, rest, hdr, hlt, -⟩
    · omega
    · have hqmem : q ∈ seqs := by
        have : q ∈ seqs.drop k := by
          rw [hdr]
          exact List.mem_cons_self q rest
        exact List.mem_of_mem_drop this
      have := hshort q hqmem
      omega
  have hlt : s.tty_buffer_head_index + s.tty_buffer_byte_count < TTY_BUFFER_SIZE := by
    omega
  by_cases hr0 : r = 0
  · subst hr0
    refine ⟨s, k, ?_, ?_⟩
    · rw [List.take_zero]
      exact ttyPass_nil_chunk parse s ia hlt
    · rw [List.drop_zero]
      exact ⟨hk, hbuf, hhead, hev, hconcat, hcnt, hdisj⟩
  · set chunk := stream.take r with hchunk
    have hchlen : chunk.length = r := by
      rw [hchunk, List.length_take]
      omega
    obtain ⟨s', hpass, hev', hcnt', hbuf', hlive', hhead'⟩ :=
      ttyPass_spec parse s chunk ia hbuf (by omega) (by omega)
    set pending := liveRegion s ++ chunk with hpending
    set pr := processLoop parse pending ia with hpr
    have hlivelen : (liveRegion s).length = s.tty_buffer_byte_count := hcnt.symm
    have hpendtake :
        pending = (flattenBytes (seqs.drop k)).take (s.tty_buffer_byte_count + r) := by
      rw [← hconcat, ← hlivelen, hpending, hchunk, List.take_append]
    have hLle : s.tty_buffer_byte_count + r ≤ (flattenBytes (seqs.drop k)).length := by
      rw [← hconcat, List.length_append, hlivelen]
      omega
    obtain ⟨ss₁, ss₂, p, hsplit, htake, hlen, hdisj2⟩ :=
      flatten_split (seqs.drop k) (s.tty_buffer_byte_count + r) hLle
    have hpend2 : pending = flattenBytes ss₁ ++ p := by rw [hpendtake, htake]
    have hmemdrop : ∀ q ∈ seqs.drop k, q ∈ seqs := fun q hq => List.mem_of_mem_drop hq
    have hwf₁ : ∀ q ∈ ss₁, SeqWellFormed parse q := by
      intro q hq
      refine hwf q (hmemdrop q ?_)
      rw [hsplit]
      exact List.mem_append_left ss₂ hq
    have hpinc : PrefixesIncomplete parse p := by
      rcases hdisj2 with ⟨-, hp0⟩ | ⟨q, qs, hss2, hpq, hplen⟩
      · subst hp0
        intro j hj1 hj2 _
        simp at hj2
        omega
      · have hqmem : q ∈ seqs := by
          refine hmemdrop q ?_
          rw [hsplit, hss2]
          exact List.mem_append_right ss₁ (List.mem_cons_self q qs)
        have := prefixesIncomplete_of_wf parse q (hwf q hqmem) p.length hplen
        rw [← hpq] at this
        exact this
    have hproc : pr = (ss₁.map (·.evt), (flattenBytes ss₁).length) := by
      rw [hpr, hpend2]
      exact processLoop_concat parse ia ss₁ p hwf₁ hpinc
    have hcons : pr.2 = (flattenBytes ss₁).length := by rw [hproc]
    have hevs : pr.1 = ss₁.map (·.evt) := by rw [hproc]
    -- structure of seqs around k
    have hseqs : seqs = (seqs.take k ++ ss₁) ++ ss₂ := by
      rw [List.append_assoc, ← hsplit, List.take_append_drop]
    have htklen : (seqs.take k).length = k := by
      rw [List.length_take]
      omega
    set k' := k + ss₁.length with hk'
    have htk' : seqs.take k' = seqs.take k ++ ss₁ := by
      conv in seqs.take k' => rw [hseqs]
      rw [List.take_left']
      rw [List.length_append, htklen]
    have hdk' : seqs.drop k' = ss₂ := by
      conv in seqs.drop k' => rw [hseqs]
      rw [List.drop_left']
      rw [List.length_append, htklen]
    have hk'le : k' ≤ seqs.length := by
      have : seqs.length = (seqs.take k ++ ss₁).length + ss₂.length := by
        rw [← List.length_append, ← hseqs]
      rw [List.length_append, htklen] at this
      omega
    -- new byte count
    have hcount' : s'.tty_buffer_byte_count = p.length := by
      rw [hcnt', hchlen, hcons]
      omega
    -- new live region
    have hlivep : liveRegion s' = p := by
      rw [hlive', hpend2, hcons]
      exact List.drop_left' rfl
    -- remaining stream matches
    have hconcat' : liveRegion s' ++ stream.drop r = flattenBytes (seqs.drop k') := by
      rw [hlivep, hdk']
      have e1 : flattenBytes ss₁ ++ (p ++ stream.drop r)
          = (flattenBytes ss₁ ++ p) ++ stream.drop r := (List.append_assoc _ _ _).symm
      have e2 : (flattenBytes ss₁ ++ p) ++ stream.drop r
          = liveRegion s ++ (chunk ++ stream.drop r) := by
        rw [← hpend2, hpending, List.append_assoc]
      have e4 : chunk ++ stream.drop r = stream := by
        rw [hchunk]
        exact List.take_append_drop r stream
      have e5 : liveRegion s ++ stream = flattenBytes ss₁ ++ flattenBytes ss₂ := by
        rw [hconcat, hsplit, flattenBytes_append]
      have hmain : flattenBytes ss₁ ++ (p ++ stream.drop r)
          = flattenBytes ss₁ ++ flattenBytes ss₂ := by
        rw [e1, e2, e4, e5]
      exact List.append_cancel_left hmain
    -- head bound
    have hhead'bound :
        s'.tty_buffer_head_index + TTY_BUFFER_THRESHOLD < TTY_BUFFER_SIZE - 1 := by
      rw [hhead']
      by_cases hcomp : TTY_BUFFER_SIZE - 1 ≤
          s.tty_buffer_head_index + pr.2 + TTY_BUFFER_THRESHOLD
      · simp only [hcomp, if_true]
        omega
      · simp only [hcomp, if_false]
        omega
    refine ⟨s', k', hpass, hk'le, hbuf', hhead'bound, ?_, hconcat', ?_, ?_⟩
    · rw [hev', hevs, hev, htk', List.map_append]
    · rw [hcount', hlivep]
    · rcases hdisj2 with ⟨hss2, hp0⟩ | ⟨q, qs, hss2, hpq, hplen⟩
      · exact Or.inl ⟨by rw [hdk', hss2], by rw [hcount', hp0]; rfl⟩
      · refine Or.inr ⟨q, qs, by rw [hdk', hss2], by omega, ?_⟩
        rw [hlivep, hcount']
        conv_lhs => rw [hpq]

theorem feedStream_inv (parse : Parser β Ev) (seqs : List (WfSeq β Ev))
    (hwf : ∀ q ∈ seqs, SeqWellFormed parse q)
    (hshort : ∀ q ∈ seqs, q.bytes.length ≤ TTY_BUFFER_THRESHOLD + 2) :
    ∀ (reads : List (Nat × Bool)) (s : UnixInternalEventSource β Ev)
      (stream : List β) (k : Nat), RunInv seqs s stream k →
      ∃ s' rest k', feedStream parse s stream reads = some (s', rest) ∧
        RunInv seqs s' rest k' := by
  intro reads
  induction reads with
  | nil =>
      intro s stream k hinv
      exact ⟨s, stream, k, rfl, hinv⟩
  | cons hd tl ih =>
      intro s stream k hinv
      obtain ⟨offered, ia⟩ := hd
      set r := min offered (min stream.length
        (TTY_BUFFER_SIZE - s.tty_buffer_head_index - s.tty_buffer_byte_count)) with hrdef
      obtain ⟨s', k', hpass, hinv'⟩ :=
        runInv_step parse seqs hwf hshort s stream k hinv ia r
          (by omega) (by omega)
      obtain ⟨s'', rest, k'', hfeed, hinv''⟩ := ih s' (stream.drop r) k' hinv'
      refine ⟨s'', rest, k'', ?_, hinv''⟩
      rw [feedStream, ← hrdef, hpass]
      exact hfeed

theorem runInv_init (parse : Parser β Ev) (seqs : List (WfSeq β Ev))
    (garbage : List β) (hgar : garbage.length = TTY_BUFFER_SIZE)
    (hwf : ∀ q ∈ seqs, SeqWellFormed parse q) :
    RunInv seqs (from_file_descriptor garbage) (flattenBytes seqs) 0 := by
  have hlive : liveRegion (from_file_descriptor garbage : UnixInternalEventSource β Ev)
      = [] := by
    simp [liveRegion, from_file_descriptor]
  refine ⟨Nat.zero_le _, hgar, by norm_num [TTY_BUFFER_SIZE, TTY_BUFFER_THRESHOLD,
    from_file_descriptor], by simp [from_file_descriptor], ?_, ?_, ?_⟩
  · rw [hlive, List.nil_append, List.drop_zero]
  · rw [hlive]
    rfl
  · cases hs : seqs with
    | nil => exact Or.inl ⟨by rw [List.drop_zero], rfl⟩
    | cons q qs =>
        refine Or.inr ⟨q, qs, by rw [List.drop_zero], ?_, by rw [hlive]; rfl⟩
        have hq : SeqWellFormed parse q := hwf q (by rw [hs]; exact List.mem_cons_self q qs)
        have : q.bytes ≠ [] := hq.1
        cases hb : q.bytes with
        | nil => exact absurd hb this
        | cons a l => simp [from_file_descriptor, hb]

theorem ttyPass_full (parse : Parser β Ev) (s : UnixInternalEventSource β Ev)
    (chunk : List β) (ia : Bool)
    (h : TTY_BUFFER_SIZE ≤ s.tty_buffer_head_index + s.tty_buffer_byte_count) :
    ttyPass parse s chunk ia = none := by
  rw [ttyPass]
  simp [h]

/-- A parser for which `List.replicate 8193 0` is one single complete,
well-formed sequence: every shorter slice is `Ok(None)` (still waiting for
the final byte), the full 8193-byte slice decodes. -/
def oversizeParse : Parser Nat Nat := fun bs _ =>
  if bs.length < 8193 then .incomplete else .success 0

/-- The 8193-byte sequence, one byte longer than the tty buffer. -/
def oversizeSeq : WfSeq Nat Nat := ⟨List.replicate 8193 0, 0⟩

theorem oversizeSeq_wf : SeqWellFormed oversizeParse oversizeSeq := by
  refine ⟨?_, ?_, ?_⟩
  · show List.replicate 8193 (0 : Nat) ≠ []
    intro hnil
    have hlen := congrArg List.length hnil
    rw [List.length_replicate, List.length_nil] at hlen
    exact absurd hlen (by norm_num)
  · intro m
    show oversizeParse (List.replicate 8193 0) m = .success 0
    simp only [oversizeParse, List.length_replicate]
    norm_num
  · intro j hj1 hj2 m
    simp only [oversizeSeq, List.length_replicate] at hj2
    simp only [oversizeParse, oversizeSeq, List.take_replicate, List.length_replicate]
    have : min j 8193 = j := by omega
    rw [this, if_pos hj2]

/-- `C1` — counterexample to the claim as stated: a single complete,
well-formed input sequence of 8193 bytes (one more than the buffer
capacity), delivered as a full-buffer read followed by one more read,
makes the driver hit the full-buffer `panic!` (`feedStream` = `none`)
instead of producing its one decoded event. -/
theorem C1_counterexample :
    SeqWellFormed oversizeParse oversizeSeq ∧
    feedStream oversizeParse
      (from_file_descriptor (List.replicate TTY_BUFFER_SIZE 0))
      oversizeSeq.bytes [(TTY_BUFFER_SIZE, false), (1, false)] = none := by
  refine ⟨oversizeSeq_wf, ?_⟩
  set s0 : UnixInternalEventSource Nat Nat :=
    from_file_descriptor (List.replicate TTY_BUFFER_SIZE 0) with hs0
  have hT : TTY_BUFFER_SIZE = 8192 := rfl
  have hh0 : s0.tty_buffer_head_index = 0 := rfl
  have hc0 : s0.tty_buffer_byte_count = 0 := rfl
  have hb0 : s0.tty_buffer.length = TTY_BUFFER_SIZE := List.length_replicate _ _
  have hstreamlen : oversizeSeq.bytes.length = 8193 := List.length_replicate _ _
  have hr : min TTY_BUFFER_SIZE (min oversizeSeq.bytes.length
      (TTY_BUFFER_SIZE - s0.tty_buffer_head_index - s0.tty_buffer_byte_count))
      = 8192 := by
    rw [hh0, hc0, hstreamlen, hT]
    omega
  have hchunk : oversizeSeq.bytes.take 8192 = List.replicate 8192 0 := by
    show (List.replicate 8193 (0 : Nat)).take 8192 = List.replicate 8192 0
    have hm : (8192 : Nat) ⊓ 8193 = 8192 := by norm_num
    rw [List.take_replicate, hm]
  obtain ⟨s1, hpass, hev1, hcnt1, hbuf1, hlive1, hhead1⟩ :=
    ttyPass_spec oversizeParse s0 (oversizeSeq.bytes.take 8192) false
      hb0
      (by rw [hh0, hc0, hchunk, List.length_replicate, hT])
      (by rw [hchunk, List.length_replicate]; norm_num)
  have hlive0 : liveRegion s0 = [] := rfl
  have hpinc : PrefixesIncomplete oversizeParse
      (liveRegion s0 ++ oversizeSeq.bytes.take 8192) := by
    rw [hlive0, List.nil_append, hchunk]
    intro j hj1 hj2 m
    rw [List.length_replicate] at hj2
    simp only [oversizeParse, List.take_replicate, List.length_replicate]
    have hmin : min j 8192 = j := by omega
    rw [hmin]
    have hjlt : j < 8193 := by omega
    rw [if_pos hjlt]
  have hproc : processLoop oversizeParse
      (liveRegion s0 ++ oversizeSeq.bytes.take 8192) false = ([], 0) :=
    processLoop_eq_stopped _ _ _
      (scanFrom_stopped_of_incomplete _ _ _ hpinc 1)
  have hpr0 : (processLoop oversizeParse
      (liveRegion s0 ++ oversizeSeq.bytes.take 8192) false).2 = 0 := by
    rw [hproc]
  have hcnt1' : s1.tty_buffer_byte_count = 8192 := by
    rw [hcnt1, hpr0, hc0, hchunk, List.length_replicate]
  have hhead1' : s1.tty_buffer_head_index = 0 := by
    rw [hhead1, hpr0, hh0]
    simp
  have hnone : ∀ chunk2 : List Nat, ttyPass oversizeParse s1 chunk2 false = none := by
    intro chunk2
    apply ttyPass_full
    rw [hhead1', hcnt1', hT]
  rw [feedStream, hr, hpass]
  show feedStream oversizeParse s1 (oversizeSeq.bytes.drop 8192) [(1, false)] = none
  rw [feedStream, hnone]

/-- `C1` (amended): with each sequence bounded by
`TTY_BUFFER_THRESHOLD + 2` bytes (so a partial sequence can never fill the
buffer), any chunking of the concatenated well-formed sequences makes the
driver decode exactly the `N` events, in order, once the whole stream has
been delivered — identical for every chunking, including one byte at a
time and a single full read. -/
theorem C1_roundtrip_amended (parse : Parser β Ev) (seqs : List (WfSeq β Ev))
    (reads : List (Nat × Bool)) (garbage : List β)
    (hgar : garbage.length = TTY_BUFFER_SIZE)
    (hwf : ∀ q ∈ seqs, SeqWellFormed parse q)
    (hshort : ∀ q ∈ seqs, q.bytes.length ≤ TTY_BUFFER_THRESHOLD + 2) :
    ∃ fin rest,
      feedStream parse (from_file_descriptor garbage) (flattenBytes seqs) reads
        = some (fin, rest) ∧
      (rest = [] →
        fin.internal_events = seqs.map (·.evt) ∧
        fin.tty_buffer_byte_count = 0) := by
  obtain ⟨fin, rest, k, hfeed, hinv⟩ :=
    feedStream_inv parse seqs hwf hshort reads (from_file_descriptor garbage)
      (flattenBytes seqs) 0 (runInv_init parse seqs garbage hgar hwf)
  refine ⟨fin, rest, hfeed, ?_⟩
  intro hrest
  subst hrest
  obtain ⟨hk, hbuf, hhead, hev, hconcat, hcnt, hdisj⟩ := hinv
  rw [List.append_nil] at hconcat
  rcases hdisj with ⟨hdk, hc0⟩ | ⟨q, qs, hdk, hlt, hlive⟩
  · have hklen : seqs.length ≤ k := List.drop_eq_nil_iff.mp hdk
    have hkeq : k = seqs.length := by omega
    rw [hkeq, List.take_length] at hev
    exact ⟨hev, hc0⟩
  · exfalso
    have h1 : (liveRegion fin).length = fin.tty_buffer_byte_count := hcnt.symm
    have h2 : q.bytes.length ≤ (flattenBytes (seqs.drop k)).length := by
      rw [hdk, flattenBytes_cons, List.length_append]
      omega
    rw [hconcat] at h1
    omega

/-- A tiny concrete parser: `[1, 2]` decodes to event `10` (with `[1]`
incomplete), `[3]` decodes to event `20`, anything else is invalid. -/
def tinyParse : Parser Nat Nat := fun bs _ =>
  if bs = [1, 2] then .success 10
  else if bs = [3] then .success 20
  else if bs = [1] then .incomplete
  else .invalid

theorem tinyParse_wf :
    ∀ q ∈ [(⟨[1, 2], 10⟩ : WfSeq Nat Nat), ⟨[3], 20⟩], SeqWellFormed tinyParse q := by
  intro q hq
  simp only [List.mem_cons, List.not_mem_nil, or_false] at hq
  rcases hq with rfl | rfl
  · refine ⟨by simp, fun m => rfl, ?_⟩
    intro j hj1 hj2 m
    simp only [List.length_cons, List.length_nil] at hj2
    interval_cases j
    rfl
  · refine ⟨by simp, fun m => rfl, ?_⟩
    intro j hj1 hj2 m
    simp only [List.length_cons, List.length_nil] at hj2
    omega

/-- Witness for `C1`: the amended round-trip theorem applied to the
two-sequence stream `[1, 2] ++ [3]` delivered one byte per read. -/
theorem C1_witness :
    ∃ fin rest,
      feedStream tinyParse
        (from_file_descriptor (List.replicate TTY_BUFFER_SIZE 0))
        (flattenBytes [(⟨[1, 2], 10⟩ : WfSeq Nat Nat), ⟨[3], 20⟩])
        [(1, false), (1, true), (1, false)]
        = some (fin, rest) ∧
      (rest = [] →
        fin.internal_events
          = ([(⟨[1, 2], 10⟩ : WfSeq Nat Nat), ⟨[3], 20⟩]).map (·.evt) ∧
        fin.tty_buffer_byte_count = 0) :=
  C1_roundtrip_amended tinyParse [⟨[1, 2], 10⟩, ⟨[3], 20⟩]
    [(1, false), (1, true), (1, false)] (List.replicate TTY_BUFFER_SIZE 0)
    (by simp) tinyParse_wf
    (by
      intro q hq
      simp only [List.mem_cons, List.not_mem_nil, or_false] at hq
      rcases hq with rfl | rfl <;> simp [TTY_BUFFER_THRESHOLD])

/-- The arguments `(slice, more)` of every `parse_event` call made by one
run of the inner `for` loop starting at prefix length `i`, in call
order. -/
def scanFromCalls (parse : Parser β Ev) (pending : List β) (input_available : Bool)
    (i : Nat) : List (List β × Bool) :=
  if h : 1 ≤ i ∧ i ≤ pending.length then
    match parse (pending.take i) (decide (i < pending.length) || input_available) with
    | .incomplete =>
        if h2 : i = pending.length then
          [(pending.take i, decide (i < pending.length) || input_available)]
        else
          (pending.take i, decide (i < pending.length) || input_available)
            :: scanFromCalls parse pending input_available (i + 1)
    | .success _ =>
        [(pending.take i, decide (i < pending.length) || input_available)]
    | .invalid =>
        [(pending.take i, decide (i < pending.length) || input_available)]
  else []
  termination_by pending.length + 1 - i
  decreasing_by omega

/-- The arguments of every `parse_event` call made by one whole
`while byte_count_to_process > 0` pass over `pending`, in call order. -/
def processLoopCalls (parse : Parser β Ev) (pending : List β)
    (input_available : Bool) : List (List β × Bool) :=
  if hp : pending.length = 0 then []
  else
    match hs : scanFrom parse pending input_available 1 with
    | .stopped => scanFromCalls parse pending input_available 1
    | .consumed i e2 =>
        scanFromCalls parse pending input_available 1
          ++ processLoopCalls parse (pending.drop i) input_available
  termination_by pending.length
  decreasing_by
    have := scanFrom_consumed_bounds parse pending input_available 1 i e2 hs
    simp only [List.length_drop]
    omega

theorem processLoopCalls_nil (parse : Parser β Ev) (pending : List β) (ia : Bool)
    (hp : pending.length = 0) : processLoopCalls parse pending ia = [] := by
  rw [processLoopCalls.eq_def]
  simp [hp]

theorem processLoopCalls_eq_stopped (parse : Parser β Ev) (pending : List β)
    (ia : Bool) (hp : pending.length ≠ 0)
    (hs : scanFrom parse pending ia 1 = .stopped) :
    processLoopCalls parse pending ia = scanFromCalls parse pending ia 1 := by
  rw [processLoopCalls.eq_def]
  simp only [hp, dite_false]
  split
  · rfl
  · rename_i i oe heq
    rw [hs] at heq
    simp at heq

theorem processLoopCalls_eq_consumed (parse : Parser β Ev) (pending : List β)
    (ia : Bool) (i : Nat) (oe : Option Ev) (hp : pending.length ≠ 0)
    (hs : scanFrom parse pending ia 1 = .consumed i oe) :
    processLoopCalls parse pending ia =
      scanFromCalls parse pending ia 1
        ++ processLoopCalls parse (pending.drop i) ia := by
  rw [processLoopCalls.eq_def]
  simp only [hp, dite_false]
  split
  · rename_i heq
    rw [hs] at heq
    simp at heq
  · rename_i i' oe' heq
    rw [hs] at heq
    cases heq
    rfl

theorem scanFromCalls_shape (parse : Parser β Ev) (pending : List β) (ia : Bool) :
    ∀ i c, c ∈ scanFromCalls parse pending ia i →
      ∃ j, 1 ≤ j ∧ j ≤ pending.length ∧
        c = (pending.take j, decide (j < pending.length) || ia) := by
  intro i
  induction i using scanFromCalls.induct parse pending ia with
  | case1 hi hinc =>
      intro c hc
      rw [scanFromCalls.eq_def] at hc
      simp only [hi, hinc, and_self, dite_true] at hc
      rw [List.mem_singleton] at hc
      exact ⟨pending.length, hi.1, le_refl _, hc⟩
  | case2 x hx hinc hne ih =>
      intro c hc
      rw [scanFromCalls.eq_def] at hc
      simp only [hx, hinc, hne, and_self, dite_true, dite_false, List.mem_cons] at hc
      rcases hc with rfl | hc
      · exact ⟨x, hx.1, hx.2, rfl⟩
      · exact ih c hc
  | case3 x hx e hs =>
      intro c hc
      rw [scanFromCalls.eq_def] at hc
      simp only [hx, hs, and_self, dite_true] at hc
      rw [List.mem_singleton] at hc
      exact ⟨x, hx.1, hx.2, hc⟩
  | case4 x hx hs =>
      intro c hc
      rw [scanFromCalls.eq_def] at hc
      simp only [hx, hs, and_self, dite_true] at hc
      rw [List.mem_singleton] at hc
      exact ⟨x, hx.1, hx.2, hc⟩
  | case5 x hx =>
      intro c hc
      rw [scanFromCalls.eq_def] at hc
      simp only [hx, dite_false] at hc
      simp at hc

theorem processLoopCalls_shape (parse : Parser β Ev) :
    ∀ (pending : List β) (ia : Bool) (c : List β × Bool),
      c ∈ processLoopCalls parse pending ia →
      ∃ off j, 1 ≤ j ∧ off + j ≤ pending.length ∧
        c = ((pending.drop off).take j,
          decide (j < (pending.drop off).length) || ia) := by
  intro pending ia
  induction pending, ia using processLoopCalls.induct parse with
  | case1 pending ia hp =>
      intro c hc
      rw [processLoopCalls_nil parse pending ia hp] at hc
      simp at hc
  | case2 pending ia hp hs =>
      intro c hc
      rw [processLoopCalls_eq_stopped parse pending ia hp hs] at hc
      obtain ⟨j, hj1, hj2, hc⟩ := scanFromCalls_shape parse pending ia 1 c hc
      exact ⟨0, j, hj1, by simpa using hj2, by simpa using hc⟩
  | case3 pending ia hp i oe hs ih =>
      intro c hc
      rw [processLoopCalls_eq_consumed parse pending ia i oe hp hs,
        List.mem_append] at hc
      rcases hc with hc | hc
      · obtain ⟨j, hj1, hj2, hc⟩ := scanFromCalls_shape parse pending ia 1 c hc
        exact ⟨0, j, hj1, by simpa using hj2, by simpa using hc⟩
      · obtain ⟨off, j, hj1, hj2, hc⟩ := ih c hc
        refine ⟨i + off, j, hj1, ?_, ?_⟩
        · simp only [List.length_drop] at hj2
          omega
        · rw [List.drop_drop] at hc
          exact hc

/-- The ring-buffer invariant of the data model: fixed buffer length and
`head + pending_count ≤ capacity`. -/
def BufInvariant (s : UnixInternalEventSource β Ev) : Prop :=
  s.tty_buffer.length = TTY_BUFFER_SIZE ∧
  s.tty_buffer_head_index + s.tty_buffer_byte_count ≤ TTY_BUFFER_SIZE

theorem ttyPass_some_of_not_full (parse : Parser β Ev)
    (s : UnixInternalEventSource β Ev) (chunk : List β) (ia : Bool)
    (hlt : s.tty_buffer_head_index + s.tty_buffer_byte_count < TTY_BUFFER_SIZE) :
    ttyPass parse s chunk ia ≠ none := by
  rw [ttyPass]
  simp only [not_le.mpr hlt, if_false]
  split
  · split
    · simp
    · simp
  · simp

/-- `C2`: a `TTY_TOKEN` pass that read `n = chunk.length > 0` bytes ends
with `pending_count` equal to the old pending count plus `n` minus the
total bytes consumed by successful or rejected parses; the consumed total
never exceeds `old + n`, so the stored value is the exact natural number
(no wrap-around), even when an event spanned bytes buffered from an
earlier pass (consumed > n). -/
theorem C2_pending_count_exact (parse : Parser β Ev)
    (s s' : UnixInternalEventSource β Ev) (chunk : List β) (ia : Bool)
    (hbuf : s.tty_buffer.length = TTY_BUFFER_SIZE)
    (hfit : s.tty_buffer_head_index + s.tty_buffer_byte_count + chunk.length
      ≤ TTY_BUFFER_SIZE)
    (hne : chunk.length ≠ 0)
    (hpass : ttyPass parse s chunk ia = some s') :
    (processLoop parse (liveRegion s ++ chunk) ia).2
        ≤ s.tty_buffer_byte_count + chunk.length ∧
    s'.tty_buffer_byte_count =
      s.tty_buffer_byte_count + chunk.length
        - (processLoop parse (liveRegion s ++ chunk) ia).2 := by
  obtain ⟨s'', hpass'', _, hcnt'', _, _, _⟩ :=
    ttyPass_spec parse s chunk ia hbuf hfit hne
  rw [hpass] at hpass''
  cases hpass''
  refine ⟨?_, hcnt''⟩
  have hle := processLoop_consumed_le parse (liveRegion s ++ chunk) ia
  have hll : (liveRegion s).length = s.tty_buffer_byte_count :=
    liveRegion_length s hbuf (by omega)
  rw [List.length_append, hll] at hle
  exact hle

/-- Witness for `C2`: one byte `3` read into an empty buffer; the parser
decodes it, so the stored count is `0 + 1 - 1 = 0`. -/
theorem C2_witness :
    ∃ s', ttyPass tinyParse
        (from_file_descriptor (List.replicate TTY_BUFFER_SIZE 0)) [3] false
        = some s' ∧
      (processLoop tinyParse
        (liveRegion (from_file_descriptor (List.replicate TTY_BUFFER_SIZE 0)
          : UnixInternalEventSource Nat Nat) ++ [3]) false).2 ≤ 0 + 1 ∧
      s'.tty_buffer_byte_count = 0 + 1
        - (processLoop tinyParse
            (liveRegion (from_file_descriptor (List.replicate TTY_BUFFER_SIZE 0)
              : UnixInternalEventSource Nat Nat) ++ [3]) false).2 := by
  obtain ⟨s', hpass, -, -, -, -, -⟩ :=
    ttyPass_spec tinyParse
      (from_file_descriptor (List.replicate TTY_BUFFER_SIZE 0)) [3] false
      (List.length_replicate _ _)
      (by show (0 : Nat) + 0 + 1 ≤ TTY_BUFFER_SIZE; norm_num [TTY_BUFFER_SIZE])
      (by norm_num)
  have h := C2_pending_count_exact tinyParse _ s' [3] false
    (List.length_replicate _ _)
    (by show (0 : Nat) + 0 + 1 ≤ TTY_BUFFER_SIZE; norm_num [TTY_BUFFER_SIZE])
    (by norm_num) hpass
  exact ⟨s', hpass, h.1, h.2⟩

/-- `C3`: two SIGWINCH deliveries before a drain coalesce into one pending
instance (`signal_hook` keeps one flag per signal number); the
`SIGNAL_TOKEN` branch then drains it and returns exactly one
`Resize(columns, rows)` built from the size queried at drain time, and a
second pass finds nothing pending. -/
theorem C3_resize_coalesced (pending : Bool) (size size' : Nat × Nat) :
    signalPass (sigwinchDeliver (sigwinchDeliver pending)) size
      = (some (InternalEvent.Event (Event.Resize size.1 size.2)), false) ∧
    signalPass (signalPass (sigwinchDeliver (sigwinchDeliver pending)) size).2 size'
      = (none, false) := by
  constructor
  · rfl
  · rfl

/-- `C4`: when a reading pass ends with `head + T ≥ C - 1`, the unresolved
bytes (the unconsumed suffix of the pending region) sit byte-for-byte at
buffer offset `0` and the head is reset to `0` — also when no unresolved
bytes remain. -/
theorem C4_compaction (parse : Parser β Ev)
    (s s' : UnixInternalEventSource β Ev) (chunk : List β) (ia : Bool)
    (hbuf : s.tty_buffer.length = TTY_BUFFER_SIZE)
    (hfit : s.tty_buffer_head_index + s.tty_buffer_byte_count + chunk.length
      ≤ TTY_BUFFER_SIZE)
    (hne : chunk.length ≠ 0)
    (hpass : ttyPass parse s chunk ia = some s')
    (hcomp : TTY_BUFFER_SIZE - 1 ≤
      s.tty_buffer_head_index + (processLoop parse (liveRegion s ++ chunk) ia).2
        + TTY_BUFFER_THRESHOLD) :
    s'.tty_buffer_head_index = 0 ∧
    s'.tty_buffer.take s'.tty_buffer_byte_count =
      (liveRegion s ++ chunk).drop (processLoop parse (liveRegion s ++ chunk) ia).2 := by
  obtain ⟨s'', hpass'', _, _, _, hlive'', hhead''⟩ :=
    ttyPass_spec parse s chunk ia hbuf hfit hne
  rw [hpass] at hpass''
  cases hpass''
  have hh : s'.tty_buffer_head_index = 0 := by
    rw [hhead'', if_pos hcomp]
  refine ⟨hh, ?_⟩
  have : liveRegion s' = s'.tty_buffer.take s'.tty_buffer_byte_count := by
    rw [liveRegion, hh, List.drop_zero]
  rw [← this, hlive'']

/-- Witness for `C4`: a state whose head (7680) is past the compaction
line, one fresh byte `3`; after the pass the head is back at offset 0 and
the unresolved suffix sits at the buffer start. -/
theorem C4_witness :
    ∃ s', ttyPass tinyParse
        ⟨List.replicate TTY_BUFFER_SIZE 0, 7680, 0, []⟩ [3] false = some s' ∧
      s'.tty_buffer_head_index = 0 ∧
      s'.tty_buffer.take s'.tty_buffer_byte_count =
        (liveRegion (⟨List.replicate TTY_BUFFER_SIZE 0, 7680, 0, []⟩
            : UnixInternalEventSource Nat Nat) ++ [3]).drop
          (processLoop tinyParse
            (liveRegion (⟨List.replicate TTY_BUFFER_SIZE 0, 7680, 0, []⟩
              : UnixInternalEventSource Nat Nat) ++ [3]) false).2 := by
  obtain ⟨s', hpass, -, -, -, -, -⟩ :=
    ttyPass_spec tinyParse
      (⟨List.replicate TTY_BUFFER_SIZE 0, 7680, 0, []⟩
        : UnixInternalEventSource Nat Nat) [3] false
      (List.length_replicate _ _)
      (by show (7680 : Nat) + 0 + 1 ≤ TTY_BUFFER_SIZE; norm_num [TTY_BUFFER_SIZE])
      (by norm_num)
  have h := C4_compaction tinyParse _ s' [3] false
    (List.length_replicate _ _)
    (by show (7680 : Nat) + 0 + 1 ≤ TTY_BUFFER_SIZE; norm_num [TTY_BUFFER_SIZE])
    (by norm_num) hpass
    (by
      show TTY_BUFFER_SIZE - 1 ≤ 7680 + _ + TTY_BUFFER_THRESHOLD
      norm_num [TTY_BUFFER_SIZE, TTY_BUFFER_THRESHOLD]
      omega)
  exact ⟨s', hpass, h.1, h.2⟩

/-- `C5`: `head + pending_count ≤ capacity` is established at construction
and preserved by every completed `TTY_TOKEN` pass; consequently the pass's
slice accesses `[head, head + i)`, `i ≤ byte_count_to_process`, all stay
within the `capacity`-byte buffer. -/
theorem C5_buffer_invariant (parse : Parser β Ev) (garbage : List β)
    (s s' : UnixInternalEventSource β Ev) (chunk : List β) (ia : Bool)
    (hgar : garbage.length = TTY_BUFFER_SIZE)
    (hinv : BufInvariant s)
    (hfit : chunk.length ≤
      TTY_BUFFER_SIZE - s.tty_buffer_head_index - s.tty_buffer_byte_count)
    (hpass : ttyPass parse s chunk ia = some s') :
    BufInvariant (from_file_descriptor garbage : UnixInternalEventSource β Ev) ∧
    BufInvariant s' ∧
    s.tty_buffer_head_index + (s.tty_buffer_byte_count + chunk.length)
      ≤ TTY_BUFFER_SIZE := by
  obtain ⟨hbuf, hle⟩ := hinv
  have hlt : s.tty_buffer_head_index + s.tty_buffer_byte_count < TTY_BUFFER_SIZE := by
    by_contra hge
    push_neg at hge
    rw [ttyPass_full parse s chunk ia hge] at hpass
    exact absurd hpass (by simp)
  refine ⟨⟨hgar, by simp [from_file_descriptor]⟩, ?_, by omega⟩
  rcases Nat.eq_zero_or_pos chunk.length with h0 | hp
  · rw [List.length_eq_zero] at h0
    subst h0
    rw [ttyPass_nil_chunk parse s ia hlt] at hpass
    cases hpass
    exact ⟨hbuf, hle⟩
  · obtain ⟨s'', hpass'', _, hcnt'', hbuf'', _, hhead''⟩ :=
      ttyPass_spec parse s chunk ia hbuf (by omega) (by omega)
    rw [hpass] at hpass''
    cases hpass''
    refine ⟨hbuf'', ?_⟩
    have hcons := processLoop_consumed_le parse (liveRegion s ++ chunk) ia
    have hll : (liveRegion s).length = s.tty_buffer_byte_count :=
      liveRegion_length s hbuf (by omega)
    rw [List.length_append, hll] at hcons
    rw [hcnt'', hhead'']
    split
    · omega
    · omega

/-- Witness for `C5`: the invariant holds for a fresh source and is kept
by a single-byte pass. -/
theorem C5_witness :
    ∃ s', ttyPass tinyParse
        (from_file_descriptor (List.replicate TTY_BUFFER_SIZE 0)) [3] false
        = some s' ∧
      BufInvariant (from_file_descriptor (List.replicate TTY_BUFFER_SIZE 0)
        : UnixInternalEventSource Nat Nat) ∧
      BufInvariant s' := by
  obtain ⟨s', hpass, -, -, -, -, -⟩ :=
    ttyPass_spec tinyParse
      (from_file_descriptor (List.replicate TTY_BUFFER_SIZE 0)) [3] false
      (List.length_replicate _ _)
      (by show (0 : Nat) + 0 + 1 ≤ TTY_BUFFER_SIZE; norm_num [TTY_BUFFER_SIZE])
      (by norm_num)
  have h := C5_buffer_invariant tinyParse (List.replicate TTY_BUFFER_SIZE 0) _ s'
    [3] false (List.length_replicate _ _)
    ⟨List.length_replicate _ _,
      by show (0 : Nat) + 0 ≤ TTY_BUFFER_SIZE; norm_num [TTY_BUFFER_SIZE]⟩
    (by show (1 : Nat) ≤ TTY_BUFFER_SIZE - 0 - 0; norm_num [TTY_BUFFER_SIZE]) hpass
  exact ⟨s', hpass, h.1, h.2.1⟩

/-- `C6`: the `TTY_TOKEN` branch aborts with the `panic!` (modelled as
`none`) exactly when `head + pending_count` has reached the buffer
capacity; the check runs before the read, so in that state no byte is read,
dropped, or overwritten and no state survives. -/
theorem C6_panic_iff_full (parse : Parser β Ev)
    (s : UnixInternalEventSource β Ev) (chunk : List β) (ia : Bool) :
    ttyPass parse s chunk ia = none ↔
      TTY_BUFFER_SIZE ≤ s.tty_buffer_head_index + s.tty_buffer_byte_count := by
  constructor
  · intro h
    by_contra hlt
    push_neg at hlt
    exact ttyPass_some_of_not_full parse s chunk ia hlt h
  · exact ttyPass_full parse s chunk ia

/-- `C7`: when the parser is incomplete on all shorter prefixes and
succeeds on the prefix of length `i`, the pass enqueues the event at the
back, advances the head by exactly `i` (equivalently: drops `i` bytes of
the pending region, consuming `i` more bytes) and restarts the prefix
search on the remaining bytes; when it instead rejects that prefix, the
same `i`-byte consumption happens with no event enqueued, so malformed
input cannot stall the loop. -/
theorem C7_success_and_reject (parse : Parser β Ev) (pending : List β)
    (ia : Bool) (i : Nat) (e : Ev)
    (h1 : 1 ≤ i) (h2 : i ≤ pending.length)
    (hinc : ∀ j, 1 ≤ j → j < i →
      parse (pending.take j) (decide (j < pending.length) || ia) = .incomplete) :
    (parse (pending.take i) (decide (i < pending.length) || ia) = .success e →
      processLoop parse pending ia =
        (e :: (processLoop parse (pending.drop i) ia).1,
          i + (processLoop parse (pending.drop i) ia).2)) ∧
    (parse (pending.take i) (decide (i < pending.length) || ia) = .invalid →
      processLoop parse pending ia =
        ((processLoop parse (pending.drop i) ia).1,
          i + (processLoop parse (pending.drop i) ia).2)) := by
  have hnz : pending.length ≠ 0 := by omega
  have hskip := scanFrom_skip parse pending ia (i - 1) 1 (le_refl _) (by omega)
    (fun j hj1 hj2 => hinc j hj1 (by omega))
  have h1d : 1 + (i - 1) = i := by omega
  rw [h1d] at hskip
  constructor
  · intro hsucc
    have hscan : scanFrom parse pending ia 1 = .consumed i (some e) := by
      rw [hskip, scanFrom.eq_def]
      simp only [h1, h2, and_self, dite_true, hsucc]
    rw [processLoop_eq_consumed parse pending ia i (some e) hnz hscan]
    rfl
  · intro hinv
    have hscan : scanFrom parse pending ia 1 = .consumed i none := by
      rw [hskip, scanFrom.eq_def]
      simp only [h1, h2, and_self, dite_true, hinv]
    rw [processLoop_eq_consumed parse pending ia i none hnz hscan]
    rfl

/-- Witness for `C7`: `tinyParse` on `[1, 2]` — `[1]` is incomplete, the
2-byte prefix succeeds with event `10`. -/
theorem C7_witness :
    (tinyParse (([1, 2] : List Nat).take 2)
        (decide (2 < ([1, 2] : List Nat).length) || false) = .success 10 →
      processLoop tinyParse [1, 2] false =
        (10 :: (processLoop tinyParse (([1, 2] : List Nat).drop 2) false).1,
          2 + (processLoop tinyParse (([1, 2] : List Nat).drop 2) false).2)) ∧
    (tinyParse (([1, 2] : List Nat).take 2)
        (decide (2 < ([1, 2] : List Nat).length) || false) = .invalid →
      processLoop tinyParse [1, 2] false =
        ((processLoop tinyParse (([1, 2] : List Nat).drop 2) false).1,
          2 + (processLoop tinyParse (([1, 2] : List Nat).drop 2) false).2)) :=
  C7_success_and_reject tinyParse [1, 2] false 2 10 (by norm_num) (by norm_num)
    (by
      intro j hj1 hj2
      interval_cases j
      rfl)

/-- `C8` — counterexample to "`more_available` is true exactly when more
terminal bytes are available": the zero-timeout re-poll polls the one
`Poll` instance with all three sources registered, so a pending resize
signal alone (no terminal bytes, no wake token) already yields
`more_available = true`. -/
theorem C8_counterexample : pollZero false true false = true := by decide

/-- `C8` (amended): in a pass that read bytes the driver re-polls with a
zero timeout, and `more_available` is true exactly when at least one
registered source (terminal, resize signal, or wake pipe) is ready; every
`parse_event` call of the pass is on a candidate prefix `[head+off,
head+off+j)` of the current remaining region and receives
`more = (j < to_process) || more_available` with `to_process` the bytes
remaining at that moment. -/
theorem C8_more_flag_amended (parse : Parser β Ev) (pending : List β)
    (tty_ready signal_ready wake_ready : Bool) :
    ∀ c ∈ processLoopCalls parse pending
        (pollZero tty_ready signal_ready wake_ready),
      ∃ off j, 1 ≤ j ∧ off + j ≤ pending.length ∧
        c = ((pending.drop off).take j,
          decide (j < (pending.drop off).length)
            || (tty_ready || signal_ready || wake_ready)) := by
  intro c hc
  exact processLoopCalls_shape parse pending
    (pollZero tty_ready signal_ready wake_ready) c hc

/-- Witness for `C8`: the single call made on the 1-byte region `[3]` with
only the signal source ready. -/
theorem C8_witness :
    ∃ off j, 1 ≤ j ∧ off + j ≤ ([3] : List Nat).length ∧
      (([3] : List Nat), decide ((1 : Nat) < 1) || pollZero false true false)
        = ((([3] : List Nat).drop off).take j,
          decide (j < (([3] : List Nat).drop off).length)
            || (false || true || false)) := by
  have hscan : scanFrom tinyParse [3] (pollZero false true false) 1
      = .consumed 1 (some 20) := by
    rw [scanFrom.eq_def]
    norm_num [tinyParse]
  have hmem : (([3] : List Nat), decide ((1 : Nat) < 1) || pollZero false true false)
      ∈ processLoopCalls tinyParse [3] (pollZero false true false) := by
    rw [processLoopCalls_eq_consumed tinyParse [3] _ 1 (some 20) (by norm_num) hscan,
      processLoopCalls_nil tinyParse _ _ (by norm_num), List.append_nil,
      scanFromCalls.eq_def]
    norm_num [tinyParse, pollZero]
  exact C8_more_flag_amended tinyParse [3] false true false _ hmem

/-- `C9`: `wake()` writes exactly the one byte `0x57` when the pipe has
room and leaves the pipe unchanged on a full pipe, never reporting an
error either way (it is total), so one call adds at most one token; the
`WAKE_TOKEN` branch consumes exactly one token (none if empty, the read
failure ignored) and returns `Ok(None)`. -/
theorem C9_wake_contract (pipe : List Nat) (capacity : Nat) :
    (pipe.length + 1 ≤ capacity → wake pipe capacity = pipe ++ [0x57]) ∧
    (capacity < pipe.length + 1 → wake pipe capacity = pipe) ∧
    (wake pipe capacity).length ≤ pipe.length + 1 ∧
    wakePass pipe = (pipe.drop 1, none) := by
  refine ⟨?_, ?_, ?_, rfl⟩
  · intro h
    rw [wake, if_pos h]
  · intro h
    rw [wake, if_neg (by omega)]
  · rw [wake]
    split
    · simp
    · simp

/-- Witness for `C9`: a one-slot pipe — the first wake enqueues `0x57`,
a second wake on the now-full pipe is a no-op, and the `WAKE_TOKEN` branch
drains one token and reports no event. -/
theorem C9_witness :
    wake [] 1 = [0x57] ∧ wake [0x57] 1 = [0x57] ∧
    wakePass [0x57] = ([], none) :=
  ⟨(C9_wake_contract [] 1).1 (by norm_num),
    (C9_wake_contract [0x57] 1).2.1 (by norm_num),
    (C9_wake_contract [0x57] 1).2.2.2⟩

/-- `C10`: a `TTY_TOKEN` pass whose read returned zero bytes leaves the
entire state (buffer bytes, head, pending count, event queue) unchanged,
returns no event and no error, and its outcome depends neither on the
parser nor on the re-poll answer — the parser is never consulted. -/
theorem C10_zero_read_frame (parse parse' : Parser β Ev)
    (s : UnixInternalEventSource β Ev) (ia ia' : Bool)
    (hlt : s.tty_buffer_head_index + s.tty_buffer_byte_count < TTY_BUFFER_SIZE) :
    ttyPass parse s [] ia = some s ∧
    ttyPass parse s [] ia = ttyPass parse' s [] ia' := by
  refine ⟨ttyPass_nil_chunk parse s ia hlt, ?_⟩
  rw [ttyPass_nil_chunk parse s ia hlt, ttyPass_nil_chunk parse' s ia' hlt]

/-- Witness for `C10`: the fresh source with an arbitrary one-byte buffer
and two different parsers. -/
theorem C10_witness :
    ttyPass tinyParse (from_file_descriptor (List.replicate TTY_BUFFER_SIZE 0))
        [] false
      = some (from_file_descriptor (List.replicate TTY_BUFFER_SIZE 0)) ∧
    ttyPass tinyParse (from_file_descriptor (List.replicate TTY_BUFFER_SIZE 0))
        [] false
      = ttyPass oversizeParse
          (from_file_descriptor (List.replicate TTY_BUFFER_SIZE 0)) [] true :=
  C10_zero_read_frame tinyParse oversizeParse
    (from_file_descriptor (List.replicate TTY_BUFFER_SIZE 0)) false true
    (by show (0 : Nat) + 0 < TTY_BUFFER_SIZE; norm_num [TTY_BUFFER_SIZE])

end Crossterm
